import Mathlib

/-!
Verification of the traversal/aggregation core of the `elephant` utility
layer: the recursive flattener (`iter_flattened`) and the string filter
(`filter_strings`) from `elephant/general_tools.py`, and the typed object
collector (`get_all_objs`), bulk attribute setter (`set_all_attrs`) and
attribute extraction (`extract_neo_attrs`) from `elephant/neo_tools.py`.

The Python value universe is embedded shallowly: `NeoVal` covers the
container shapes the code probes by duck typing (mappings expose `values`,
sequences expose `__iter__`, strings expose `lower`, array-likes expose
`ndim`, neo domain objects expose `file_origin`).  Neo domain objects are
embedded as `NeoObj`, carrying exactly the capabilities the code checks for
(`children_recur`, pluralized child-list attributes, and
`list_children_by_class`), plus a numeric object identity used to model
Python's `is` test for deduplication.
-/

/-- A neo domain object, as probed by `neo_tools.py`.
`oid` models Python object identity (`id`); `className` models
`obj.__class__.__name__`; `children_recur` is present iff the Python object
`hasattr(obj, 'children_recur')`; `childAttrs` holds the child-list
attributes (such as `spiketrains`) consulted via the
`classname.lower() + 's'` convention; `list_children_by_class` is present
iff the object has that method, modelled as a table from class name to the
returned children (an absent class name yields `[]`, as in neo);
`extra_attrs` names the remaining plain attributes of the object, used for
generic `hasattr` checks in `set_all_attrs`. -/
inductive NeoObj where
  | mk (oid : Nat) (className : String)
       (children_recur : Option (List NeoObj))
       (childAttrs : List (String × List NeoObj))
       (list_children_by_class : Option (List (String × List NeoObj)))
       (extra_attrs : List String)

def NeoObj.oid : NeoObj → Nat
  | .mk i _ _ _ _ _ => i

def NeoObj.className : NeoObj → String
  | .mk _ c _ _ _ _ => c

def NeoObj.children_recur : NeoObj → Option (List NeoObj)
  | .mk _ _ ch _ _ _ => ch

def NeoObj.childAttrs : NeoObj → List (String × List NeoObj)
  | .mk _ _ _ a _ _ => a

def NeoObj.list_children_by_class : NeoObj → Option (List (String × List NeoObj))
  | .mk _ _ _ _ t _ => t

def NeoObj.extra_attrs : NeoObj → List String
  | .mk _ _ _ _ _ e => e

mutual

/-- Structural equality test for `NeoObj` (the nested inductive blocks the
derived `DecidableEq` instance, so the instance is built from this). -/
def beqObj : NeoObj → NeoObj → Bool
  | .mk i c ch a t e, .mk i' c' ch' a' t' e' =>
    i == i' && c == c' && beqOptObjList ch ch' && beqAttrTable a a' &&
    beqOptAttrTable t t' && e == e'

def beqObjList : List NeoObj → List NeoObj → Bool
  | [], [] => true
  | o :: os, o' :: os' => beqObj o o' && beqObjList os os'
  | _, _ => false

def beqOptObjList : Option (List NeoObj) → Option (List NeoObj) → Bool
  | none, none => true
  | some l, some l' => beqObjList l l'
  | _, _ => false

def beqAttrTable : List (String × List NeoObj) → List (String × List NeoObj) → Bool
  | [], [] => true
  | (k, l) :: rest, (k', l') :: rest' => k == k' && beqObjList l l' && beqAttrTable rest rest'
  | _, _ => false

def beqOptAttrTable :
    Option (List (String × List NeoObj)) → Option (List (String × List NeoObj)) → Bool
  | none, none => true
  | some t, some t' => beqAttrTable t t'
  | _, _ => false

end

theorem beq_obj_iff : ∀ n,
    (∀ a : NeoObj, sizeOf a ≤ n → ∀ b, (beqObj a b = true ↔ a = b)) ∧
    (∀ l : List NeoObj, sizeOf l ≤ n → ∀ m, (beqObjList l m = true ↔ l = m)) ∧
    (∀ o : Option (List NeoObj), sizeOf o ≤ n → ∀ p, (beqOptObjList o p = true ↔ o = p)) ∧
    (∀ l : List (String × List NeoObj), sizeOf l ≤ n → ∀ m,
      (beqAttrTable l m = true ↔ l = m)) ∧
    (∀ o : Option (List (String × List NeoObj)), sizeOf o ≤ n → ∀ p,
      (beqOptAttrTable o p = true ↔ o = p)) := by
  intro n
  induction n with
  | zero =>
    refine ⟨?_, ?_, ?_, ?_, ?_⟩ <;> (intro x hx; exfalso; cases x <;> simp at hx)
  | succ n ih =>
    obtain ⟨ihObj, ihList, ihOpt, ihTbl, ihOptTbl⟩ := ih
    refine ⟨?_, ?_, ?_, ?_, ?_⟩
    · rintro ⟨i, c, ch, a, t, e⟩ hx ⟨i', c', ch', a', t', e'⟩
      simp at hx
      rw [beqObj]
      simp only [Bool.and_eq_true, beq_iff_eq, NeoObj.mk.injEq,
        ihOpt ch (by omega) ch', ihTbl a (by omega) a',
        ihOptTbl t (by omega) t']
      tauto
    · intro l hl m
      match l, m with
      | [], [] => simp [beqObjList]
      | [], _ :: _ => simp [beqObjList]
      | _ :: _, [] => simp [beqObjList]
      | o :: os, o' :: os' =>
        have hsz : sizeOf o ≤ n ∧ sizeOf os ≤ n := by simp at hl; omega
        rw [beqObjList]
        simp [Bool.and_eq_true, ihObj o hsz.1 o', ihList os hsz.2 os']
    · intro o ho p
      match o, p with
      | none, none => simp [beqOptObjList]
      | none, some _ => simp [beqOptObjList]
      | some _, none => simp [beqOptObjList]
      | some l, some l' =>
        have hsz : sizeOf l ≤ n := by simp at ho; omega
        rw [beqOptObjList]
        simp [ihList l hsz l']
    · intro l hl m
      match l, m with
      | [], [] => simp [beqAttrTable]
      | [], _ :: _ => simp [beqAttrTable]
      | _ :: _, [] => simp [beqAttrTable]
      | (k, kl) :: rest, (k', kl') :: rest' =>
        have hsz : sizeOf kl ≤ n ∧ sizeOf rest ≤ n := by simp at hl; omega
        rw [beqAttrTable]
        simp only [Bool.and_eq_true, beq_iff_eq, List.cons.injEq, Prod.mk.injEq,
          ihList kl hsz.1 kl', ihTbl rest hsz.2 rest']
    · intro o ho p
      match o, p with
      | none, none => simp [beqOptAttrTable]
      | none, some _ => simp [beqOptAttrTable]
      | some _, none => simp [beqOptAttrTable]
      | some t, some t' =>
        have hsz : sizeOf t ≤ n := by simp at ho; omega
        rw [beqOptAttrTable]
        simp [ihTbl t hsz t']

instance : DecidableEq NeoObj := fun a b =>
  decidable_of_iff _ ((beq_obj_iff (sizeOf a)).1 a le_rfl b)

/-- The Python values the traversal core manipulates: scalars, strings,
lists, tuples, dicts (string keys suffice: keys are never yielded),
numpy-like arrays carrying a dimensionality count, and neo objects. -/
inductive NeoVal where
  | int (n : Int)
  | str (s : String)
  | list (elems : List NeoVal)
  | tuple (elems : List NeoVal)
  | dict (entries : List (String × NeoVal))
  | ndarray (ndim : Nat) (elems : List NeoVal)
  | neoObj (o : NeoObj)

mutual

/-- Structural equality test for `NeoVal`. -/
def beqVal : NeoVal → NeoVal → Bool
  | .int a, .int b => a == b
  | .str a, .str b => a == b
  | .list l, .list m => beqValList l m
  | .tuple l, .tuple m => beqValList l m
  | .dict d, .dict e => beqValEntries d e
  | .ndarray i l, .ndarray j m => i == j && beqValList l m
  | .neoObj o, .neoObj p => o == p
  | _, _ => false

def beqValList : List NeoVal → List NeoVal → Bool
  | [], [] => true
  | v :: vs, w :: ws => beqVal v w && beqValList vs ws
  | _, _ => false

def beqValEntries : List (String × NeoVal) → List (String × NeoVal) → Bool
  | [], [] => true
  | (k, v) :: rest, (k', w) :: rest' => k == k' && beqVal v w && beqValEntries rest rest'
  | _, _ => false

end

theorem beq_val_iff : ∀ n,
    (∀ a : NeoVal, sizeOf a ≤ n → ∀ b, (beqVal a b = true ↔ a = b)) ∧
    (∀ l : List NeoVal, sizeOf l ≤ n → ∀ m, (beqValList l m = true ↔ l = m)) ∧
    (∀ l : List (String × NeoVal), sizeOf l ≤ n → ∀ m,
      (beqValEntries l m = true ↔ l = m)) := by
  intro n
  induction n with
  | zero =>
    refine ⟨?_, ?_, ?_⟩ <;> (intro x hx; exfalso; cases x <;> simp at hx)
  | succ n ih =>
    obtain ⟨ihVal, ihList, ihEntries⟩ := ih
    refine ⟨?_, ?_, ?_⟩
    · intro a ha b
      match a, b with
      | .int x, b =>
        cases b <;> rw [beqVal] <;> simp
      | .str x, b =>
        cases b <;> rw [beqVal] <;> simp
      | .list l, b =>
        have hsz : sizeOf l ≤ n := by simp at ha; omega
        cases b <;> rw [beqVal] <;> simp [ihList l hsz]
      | .tuple l, b =>
        have hsz : sizeOf l ≤ n := by simp at ha; omega
        cases b <;> rw [beqVal] <;> simp [ihList l hsz]
      | .dict d, b =>
        have hsz : sizeOf d ≤ n := by simp at ha; omega
        cases b <;> rw [beqVal] <;> simp [ihEntries d hsz]
      | .ndarray i l, b =>
        have hsz : sizeOf l ≤ n := by simp at ha; omega
        cases b <;> rw [beqVal] <;> simp [Bool.and_eq_true, ihList l hsz]
      | .neoObj o, b =>
        cases b <;> rw [beqVal] <;> simp
    · intro l hl m
      match l, m with
      | [], [] => simp [beqValList]
      | [], _ :: _ => simp [beqValList]
      | _ :: _, [] => simp [beqValList]
      | v :: vs, w :: ws =>
        have hsz : sizeOf v ≤ n ∧ sizeOf vs ≤ n := by simp at hl; omega
        rw [beqValList]
        simp [Bool.and_eq_true, ihVal v hsz.1 w, ihList vs hsz.2 ws]
    · intro l hl m
      match l, m with
      | [], [] => simp [beqValEntries]
      | [], _ :: _ => simp [beqValEntries]
      | _ :: _, [] => simp [beqValEntries]
      | (k, v) :: rest, (k', w) :: rest' =>
        have hsz : sizeOf v ≤ n ∧ sizeOf rest ≤ n := by simp at hl; omega
        rw [beqValEntries]
        simp only [Bool.and_eq_true, beq_iff_eq, List.cons.injEq, Prod.mk.injEq,
          ihVal v hsz.1 w, ihEntries rest hsz.2 rest']

instance : DecidableEq NeoVal := fun a b =>
  decidable_of_iff _ ((beq_val_iff (sizeOf a)).1 a le_rfl b)

/-- The runtime type of a value, as interpolated into the
`'Cannot handle object of type %s'` message by `get_all_objs`. -/
def typeName : NeoVal → String
  | .int _ => "int"
  | .str _ => "str"
  | .list _ => "list"
  | .tuple _ => "tuple"
  | .dict _ => "dict"
  | .ndarray _ _ => "ndarray"
  | .neoObj o => o.className

/-- `hasattr(container, 'file_origin')`: true exactly for neo objects. -/
def has_file_origin : NeoVal → Bool
  | .neoObj _ => true
  | _ => false

mutual

/-- `general_tools.iter_flattened`, materialized to a list (the Python
generator is a single forward pass; its sequence of yields is this list).
Branch order follows the source: a mapping (`values` present, `ndim`
absent) recurses into its values (the `values()` view is itself iterated
by the second branch, so the net effect is element-wise recursion); an
iterable that is not string-like (`lower`) and not array-like (`ndim`)
recurses element-wise; an array-like is recursed into only when
`flat_ndarray` is true and its `ndim` is truthy (nonzero); anything else
is yielded as a leaf. -/
def iter_flattened (flat_ndarray : Bool) : NeoVal → List NeoVal
  | .dict entries => flattenDictVals flat_ndarray entries
  | .list elems => flattenSeq flat_ndarray elems
  | .tuple elems => flattenSeq flat_ndarray elems
  | .ndarray ndim elems =>
    if flat_ndarray && !(ndim == 0) then flattenSeq flat_ndarray elems
    else [.ndarray ndim elems]
  | v => [v]

/-- Element-wise recursion of `iter_flattened` over a sequence. -/
def flattenSeq (flat_ndarray : Bool) : List NeoVal → List NeoVal
  | [] => []
  | v :: vs => iter_flattened flat_ndarray v ++ flattenSeq flat_ndarray vs

/-- Recursion of `iter_flattened` over a dict's values (keys discarded). -/
def flattenDictVals (flat_ndarray : Bool) : List (String × NeoVal) → List NeoVal
  | [] => []
  | (_, v) :: rest => iter_flattened flat_ndarray v ++ flattenDictVals flat_ndarray rest

end

theorem flattenSeq_eq (b : Bool) (es : List NeoVal) :
    flattenSeq b es = es.flatMap (iter_flattened b) := by
  induction es with
  | nil => simp [flattenSeq]
  | cons e es ih => simp [flattenSeq, ih]

theorem flattenDictVals_eq (b : Bool) (entries : List (String × NeoVal)) :
    flattenDictVals b entries = (entries.map Prod.snd).flatMap (iter_flattened b) := by
  induction entries with
  | nil => simp [flattenDictVals]
  | cons kv rest ih =>
    obtain ⟨k, v⟩ := kv
    simp [flattenDictVals, ih]

/-- Every element yielded by the flattener is no larger than the input. -/
theorem sizeOf_le_of_mem_iter_flattened :
    ∀ n (c : NeoVal), sizeOf c ≤ n → ∀ x ∈ iter_flattened false c, sizeOf x ≤ sizeOf c := by
  intro n
  induction n with
  | zero =>
    intro c hc
    exfalso
    cases c <;> simp at hc
  | succ n ih =>
    intro c hc x hx
    match c with
    | .int v => simp [iter_flattened] at hx; simp [hx]
    | .str s => simp [iter_flattened] at hx; simp [hx]
    | .ndarray d es => simp [iter_flattened] at hx; simp [hx]
    | .neoObj o => simp [iter_flattened] at hx; simp [hx]
    | .list es =>
      rw [iter_flattened, flattenSeq_eq] at hx
      obtain ⟨e, he, hxe⟩ := List.mem_flatMap.1 hx
      have h1 : sizeOf e < sizeOf es := List.sizeOf_lt_of_mem he
      have h2 : sizeOf e ≤ n := by simp at hc; omega
      have := ih e h2 x hxe
      simp
      omega
    | .tuple es =>
      rw [iter_flattened, flattenSeq_eq] at hx
      obtain ⟨e, he, hxe⟩ := List.mem_flatMap.1 hx
      have h1 : sizeOf e < sizeOf es := List.sizeOf_lt_of_mem he
      have h2 : sizeOf e ≤ n := by simp at hc; omega
      have := ih e h2 x hxe
      simp
      omega
    | .dict entries =>
      rw [iter_flattened, flattenDictVals_eq] at hx
      obtain ⟨e, he, hxe⟩ := List.mem_flatMap.1 hx
      obtain ⟨kv, hkv, rfl⟩ := List.mem_map.1 he
      have h1 : sizeOf kv < sizeOf entries := List.sizeOf_lt_of_mem hkv
      have h0 : sizeOf kv.2 ≤ sizeOf kv := by
        obtain ⟨a, b⟩ := kv
        simp
      have h2 : sizeOf kv.2 ≤ n := by simp at hc; omega
      have := ih kv.2 h2 x hxe
      simp
      omega

/-- Every element yielded by the flattener is itself atomic for the
flattener: flattening it again yields only the element. -/
theorem iter_flattened_of_mem :
    ∀ n (c : NeoVal), sizeOf c ≤ n → ∀ x ∈ iter_flattened false c,
      iter_flattened false x = [x] := by
  intro n
  induction n with
  | zero =>
    intro c hc
    exfalso
    cases c <;> simp at hc
  | succ n ih =>
    intro c hc x hx
    match c with
    | .int v => simp [iter_flattened] at hx; simp [hx, iter_flattened]
    | .str s => simp [iter_flattened] at hx; simp [hx, iter_flattened]
    | .ndarray d es => simp [iter_flattened] at hx; simp [hx, iter_flattened]
    | .neoObj o => simp [iter_flattened] at hx; simp [hx, iter_flattened]
    | .list es =>
      rw [iter_flattened, flattenSeq_eq] at hx
      obtain ⟨e, he, hxe⟩ := List.mem_flatMap.1 hx
      have h1 : sizeOf e < sizeOf es := List.sizeOf_lt_of_mem he
      have h2 : sizeOf e ≤ n := by simp at hc; omega
      exact ih e h2 x hxe
    | .tuple es =>
      rw [iter_flattened, flattenSeq_eq] at hx
      obtain ⟨e, he, hxe⟩ := List.mem_flatMap.1 hx
      have h1 : sizeOf e < sizeOf es := List.sizeOf_lt_of_mem he
      have h2 : sizeOf e ≤ n := by simp at hc; omega
      exact ih e h2 x hxe
    | .dict entries =>
      rw [iter_flattened, flattenDictVals_eq] at hx
      obtain ⟨e, he, hxe⟩ := List.mem_flatMap.1 hx
      obtain ⟨kv, hkv, rfl⟩ := List.mem_map.1 he
      have h1 : sizeOf kv < sizeOf entries := List.sizeOf_lt_of_mem hkv
      have h0 : sizeOf kv.2 ≤ sizeOf kv := by
        obtain ⟨a, b⟩ := kv
        simp
      have h2 : sizeOf kv.2 ≤ n := by simp at hc; omega
      exact ih kv.2 h2 x hxe

/-- For a decomposable container (list, tuple or dict), the flattener never
yields the container itself as its sole element. -/
theorem iter_flattened_ne_singleton_self (c : NeoVal)
    (h : (∃ es, c = .list es) ∨ (∃ es, c = .tuple es) ∨ (∃ en, c = .dict en)) :
    iter_flattened false c ≠ [c] := by
  intro heq
  have hc : c ∈ iter_flattened false c := by rw [heq]; simp
  have hsz : sizeOf c ≤ sizeOf c :=
    sizeOf_le_of_mem_iter_flattened (sizeOf c) c le_rfl c hc
  rcases h with ⟨es, rfl⟩ | ⟨es, rfl⟩ | ⟨en, rfl⟩ <;>
    · rw [iter_flattened] at hc
      first
      | (rw [flattenSeq_eq] at hc
         obtain ⟨e, he, hce⟩ := List.mem_flatMap.1 hc
         have h1 : sizeOf e < sizeOf es := List.sizeOf_lt_of_mem he
         have h2 := sizeOf_le_of_mem_iter_flattened (sizeOf e) e le_rfl _ hce
         simp at h2
         omega)
      | (rw [flattenDictVals_eq] at hc
         obtain ⟨e, he, hce⟩ := List.mem_flatMap.1 hc
         obtain ⟨kv, hkv, rfl⟩ := List.mem_map.1 he
         have h1 : sizeOf kv < sizeOf en := List.sizeOf_lt_of_mem hkv
         have h0 : sizeOf kv.2 ≤ sizeOf kv := by
           obtain ⟨a, b⟩ := kv
           simp
         have h2 := sizeOf_le_of_mem_iter_flattened (sizeOf kv.2) kv.2 le_rfl _ hce
         simp at h2
         omega)

/-- Modelled from the external `neo.core.container.unique_objs` helper,
which `get_all_objs` imports: deduplicate a list of neo objects by Python
object identity (the `is` test, here the `oid` field), keeping the first
occurrence of each identity and preserving first-seen order. -/
def uniqueAux (seen : List Nat) : List NeoObj → List NeoObj
  | [] => []
  | o :: os =>
    if o.oid ∈ seen then uniqueAux seen os
    else o :: uniqueAux (o.oid :: seen) os

/-- `unique_objs(objs)` from neo, applied by `get_all_objs` before
returning. -/
def unique_objs (objs : List NeoObj) : List NeoObj :=
  uniqueAux [] objs

theorem uniqueAux_congr {s t : List Nat} (l : List NeoObj)
    (h : ∀ i, i ∈ s ↔ i ∈ t) : uniqueAux s l = uniqueAux t l := by
  induction l generalizing s t with
  | nil => simp [uniqueAux]
  | cons o os ih =>
    rw [uniqueAux, uniqueAux]
    by_cases hmem : o.oid ∈ s
    · rw [if_pos hmem, if_pos ((h o.oid).1 hmem)]
      exact ih h
    · rw [if_neg hmem, if_neg (fun hc => hmem ((h o.oid).2 hc))]
      refine congrArg _ (ih fun i => ?_)
      simp [h i]

theorem uniqueAux_append (A B : List NeoObj) (s : List Nat) :
    uniqueAux s (A ++ B) = uniqueAux s A ++ uniqueAux (A.map NeoObj.oid ++ s) B := by
  induction A generalizing s with
  | nil => simp [uniqueAux]
  | cons a A ih =>
    rw [List.cons_append, uniqueAux, uniqueAux]
    by_cases hmem : a.oid ∈ s
    · rw [if_pos hmem, if_pos hmem, ih]
      refine congrArg _ (uniqueAux_congr B fun i => ?_)
      simp only [List.map_cons, List.cons_append, List.mem_cons]
      constructor
      · exact Or.inr
      · rintro (rfl | h)
        · exact List.mem_append_right _ hmem
        · exact h
    · rw [if_neg hmem, if_neg hmem, ih, List.cons_append]
      refine congrArg _ (congrArg _ (uniqueAux_congr B fun i => ?_))
      simp only [List.map_cons, List.cons_append, List.mem_append, List.mem_cons]
      tauto

theorem uniqueAux_idem (l : List NeoObj) :
    ∀ (s t : List Nat) (C : List NeoObj), (∀ i ∈ t, i ∈ s) →
      uniqueAux s (uniqueAux t l ++ C) = uniqueAux s (l ++ C) := by
  induction l with
  | nil => simp [uniqueAux]
  | cons o os ih =>
    intro s t C hts
    rw [uniqueAux]
    by_cases hot : o.oid ∈ t
    · rw [if_pos hot, List.cons_append, uniqueAux, if_pos (hts _ hot)]
      exact ih s t C hts
    · rw [if_neg hot, List.cons_append, List.cons_append, uniqueAux, uniqueAux]
      by_cases hos : o.oid ∈ s
      · rw [if_pos hos, if_pos hos]
        refine ih s (o.oid :: t) C fun i hi => ?_
        rcases List.mem_cons.1 hi with h | h
        · subst h; exact hos
        · exact hts _ h
      · rw [if_neg hos, if_neg hos]
        refine congrArg _ (ih (o.oid :: s) (o.oid :: t) C fun i hi => ?_)
        rcases List.mem_cons.1 hi with h | h
        · subst h; simp
        · simp [hts _ h]

theorem uniqueAux_sublist (s : List Nat) (l : List NeoObj) : List.Sublist (uniqueAux s l) l := by
  induction l generalizing s with
  | nil => simp [uniqueAux]
  | cons o os ih =>
    rw [uniqueAux]
    by_cases hmem : o.oid ∈ s
    · rw [if_pos hmem]
      exact (ih s).trans (List.sublist_cons_self o os)
    · rw [if_neg hmem]
      exact (ih (o.oid :: s)).cons₂ o

theorem mem_of_mem_uniqueAux {s : List Nat} {l : List NeoObj} {x : NeoObj}
    (h : x ∈ uniqueAux s l) : x ∈ l :=
  (uniqueAux_sublist s l).mem h

theorem uniqueAux_covers {l : List NeoObj} {o : NeoObj} (s : List Nat)
    (h : o ∈ l) : o.oid ∈ s ∨ ∃ o' ∈ uniqueAux s l, o'.oid = o.oid := by
  induction l generalizing s with
  | nil => simp at h
  | cons a os ih =>
    rw [uniqueAux]
    rcases List.mem_cons.1 h with rfl | hmem
    · by_cases has : o.oid ∈ s
      · exact Or.inl has
      · rw [if_neg has]
        exact Or.inr ⟨o, by simp⟩
    · by_cases has : a.oid ∈ s
      · rw [if_pos has]
        exact ih s hmem
      · rw [if_neg has]
        rcases ih (a.oid :: s) hmem with hc | ⟨o', ho', hoid⟩
        · rcases List.mem_cons.1 hc with hh | hh
          · exact Or.inr ⟨a, List.mem_cons_self a _, hh.symm⟩
          · exact Or.inl hh
        · exact Or.inr ⟨o', List.mem_cons_of_mem a ho', hoid⟩

theorem uniqueAux_nodup (s : List Nat) (l : List NeoObj) :
    ((uniqueAux s l).map NeoObj.oid).Nodup ∧
      ∀ i ∈ (uniqueAux s l).map NeoObj.oid, i ∉ s := by
  induction l generalizing s with
  | nil => simp [uniqueAux]
  | cons o os ih =>
    rw [uniqueAux]
    by_cases hmem : o.oid ∈ s
    · rw [if_pos hmem]
      exact ih s
    · rw [if_neg hmem]
      obtain ⟨h1, h2⟩ := ih (o.oid :: s)
      refine ⟨?_, ?_⟩
      · simp only [List.map_cons, List.nodup_cons]
        exact ⟨fun hc => by simpa using h2 _ hc, h1⟩
      · intro i hi
        simp only [List.map_cons, List.mem_cons] at hi
        rcases hi with h | h
        · subst h; exact hmem
        · have := h2 _ h
          simp at this
          exact this.2

theorem uniqueAux_drop_dup (B : List NeoObj) (o : NeoObj) :
    ∀ (A : List NeoObj) (s : List Nat), (o.oid ∈ s ∨ ∃ a ∈ A, a.oid = o.oid) →
      uniqueAux s (A ++ o :: B) = uniqueAux s (A ++ B) := by
  intro A
  induction A with
  | nil =>
    intro s h
    rcases h with h | ⟨a, ha, _⟩
    · simpa [uniqueAux] using fun hc => absurd h hc
    · simp at ha
  | cons a A ih =>
    intro s h
    rw [List.cons_append, List.cons_append, uniqueAux, uniqueAux]
    by_cases has : a.oid ∈ s
    · rw [if_pos has, if_pos has]
      refine ih s ?_
      rcases h with h | ⟨b, hb, hoid⟩
      · exact Or.inl h
      · rcases List.mem_cons.1 hb with rfl | hmem
        · exact Or.inl (hoid ▸ has)
        · exact Or.inr ⟨b, hmem, hoid⟩
    · rw [if_neg has, if_neg has]
      refine congrArg _ (ih (a.oid :: s) ?_)
      rcases h with h | ⟨b, hb, hoid⟩
      · exact Or.inl (by simp [h])
      · rcases List.mem_cons.1 hb with rfl | hmem
        · exact Or.inl (by simp [hoid])
        · exact Or.inr ⟨b, hmem, hoid⟩

/-- Recursive collection over the flattened candidates:
`list(chain.from_iterable(f(x) for x in xs))`, where the first error raised
by the generator propagates. -/
def concatMapM (f : α → Except String (List β)) : List α → Except String (List β)
  | [] => .ok []
  | x :: xs =>
    match f x with
    | .error e => .error e
    | .ok ys =>
      match concatMapM f xs with
      | .error e => .error e
      | .ok rest => .ok (ys ++ rest)

theorem concatMapM_append_ok {f : α → Except String (List β)} {xs ys : List α}
    {a b : List β} (hx : concatMapM f xs = .ok a) (hy : concatMapM f ys = .ok b) :
    concatMapM f (xs ++ ys) = .ok (a ++ b) := by
  induction xs generalizing a with
  | nil =>
    rw [concatMapM] at hx
    cases hx
    simpa using hy
  | cons x xs ih =>
    rw [concatMapM] at hx
    rw [List.cons_append, concatMapM]
    cases hfx : f x with
    | error e => rw [hfx] at hx; cases hx
    | ok l =>
      rw [hfx] at hx
      cases hrest : concatMapM f xs with
      | error e => rw [hrest] at hx; cases hx
      | ok r =>
        rw [hrest] at hx
        cases hx
        rw [ih hrest]
        simp

theorem concatMapM_append_err1 {f : α → Except String (List β)} {xs : List α}
    {e : String} (hx : concatMapM f xs = .error e) (ys : List α) :
    concatMapM f (xs ++ ys) = .error e := by
  induction xs with
  | nil => rw [concatMapM] at hx; cases hx
  | cons x xs ih =>
    rw [concatMapM] at hx
    rw [List.cons_append, concatMapM]
    cases hfx : f x with
    | error e' => rw [hfx] at hx; cases hx; rfl
    | ok l =>
      rw [hfx] at hx
      cases hrest : concatMapM f xs with
      | error e' =>
        rw [hrest] at hx
        cases hx
        rw [ih hrest]
      | ok r => rw [hrest] at hx; cases hx

theorem concatMapM_append_err2 {f : α → Except String (List β)} {xs ys : List α}
    {a : List β} {e : String} (hx : concatMapM f xs = .ok a)
    (hy : concatMapM f ys = .error e) :
    concatMapM f (xs ++ ys) = .error e := by
  induction xs generalizing a with
  | nil => simpa using hy
  | cons x xs ih =>
    rw [concatMapM] at hx
    rw [List.cons_append, concatMapM]
    cases hfx : f x with
    | error e' => rw [hfx] at hx; cases hx
    | ok l =>
      rw [hfx] at hx
      cases hrest : concatMapM f xs with
      | error e' => rw [hrest] at hx; cases hx
      | ok r =>
        rw [hrest] at hx
        cases hx
        rw [ih hrest]

theorem concatMapM_ok_mem {f : α → Except String (List β)} :
    ∀ {xs : List α} {l : List β}, concatMapM f xs = .ok l → ∀ x ∈ l,
      ∃ a ∈ xs, ∃ la, f a = .ok la ∧ x ∈ la := by
  intro xs
  induction xs with
  | nil =>
    intro l h x hx
    rw [concatMapM] at h
    cases h
    simp at hx
  | cons a as ih =>
    intro l h x hx
    rw [concatMapM] at h
    cases hfa : f a with
    | error e => rw [hfa] at h; cases h
    | ok la =>
      rw [hfa] at h
      cases hrest : concatMapM f as with
      | error e => rw [hrest] at h; cases h
      | ok lrest =>
        rw [hrest] at h
        cases h
        rcases List.mem_append.1 hx with hmem | hmem
        · exact ⟨a, List.mem_cons_self a as, la, hfa, hmem⟩
        · obtain ⟨b, hb, lb, hlb, hxb⟩ := ih hrest x hmem
          exact ⟨b, List.mem_cons_of_mem a hb, lb, hlb, hxb⟩

theorem concatMapM_error {f : α → Except String (List β)} :
    ∀ {xs : List α} {e : String}, concatMapM f xs = .error e → ∃ a ∈ xs, f a = .error e := by
  intro xs
  induction xs with
  | nil =>
    intro e h
    rw [concatMapM] at h
    cases h
  | cons a as ih =>
    intro e h
    rw [concatMapM] at h
    cases hfa : f a with
    | error e' =>
      rw [hfa] at h
      cases h
      exact ⟨a, List.mem_cons_self a as, hfa⟩
    | ok la =>
      rw [hfa] at h
      cases hrest : concatMapM f as with
      | error e' =>
        rw [hrest] at h
        cases h
        obtain ⟨b, hb, hfb⟩ := ih hrest
        exact ⟨b, List.mem_cons_of_mem a hb, hfb⟩
      | ok lrest => rw [hrest] at h; cases h

theorem concatMapM_map (f : γ → Except String (List β)) (g : α → γ) (l : List α) :
    concatMapM f (l.map g) = concatMapM (fun x => f (g x)) l := by
  induction l with
  | nil => simp [concatMapM]
  | cons x xs ih => rw [List.map_cons, concatMapM, concatMapM, ih]

theorem concatMapM_attach (f : α → Except String (List β)) (l : List α) :
    concatMapM (fun x => f x.1) l.attach = concatMapM f l := by
  conv_rhs => rw [← List.attach_map_subtype_val l]
  rw [concatMapM_map]

/-- `getattr(container, classholder)` where `classholder` is the
pluralization-lowercasing convention name: the first matching child-list
attribute, `none` when `hasattr` fails. -/
def lookupChildAttr (o : NeoObj) (name : String) : Option (List NeoObj) :=
  (o.childAttrs.find? (fun kv => kv.1 == name)).map Prod.snd

/-- `container.list_children_by_class(classname)`: the neo method returns
the matching descendants, an empty list when none match. -/
def lookupByClassTable (tbl : List (String × List NeoObj)) (cls : String) : List NeoObj :=
  ((tbl.find? (fun kv => kv.1 == cls)).map Prod.snd).getD []

/-- The branches of `get_all_objs` taken when
`hasattr(container, 'file_origin')` holds, i.e. for a neo domain object
(source lines 118-135 of `neo_tools.py`):
with no class name requested, the object plus its `children_recur` (when
present, deduplicated) or the object alone (early return); with a class
name, the object itself on exact class-name match (early return), else the
pluralized child-list attribute, else `list_children_by_class`, else the
unsupported-container `TypeError`. -/
def gao_domain (container : NeoObj) (classname : Option String) : Except String (List NeoObj) :=
  match classname with
  | none =>
    match container.children_recur with
    | some children => .ok (unique_objs (container :: children))
    | none => .ok [container]
  | some cls =>
    if container.className = cls then .ok [container]
    else
      match lookupChildAttr container (cls.toLower ++ "s") with
      | some vals => .ok (unique_objs vals)
      | none =>
        match container.list_children_by_class with
        | some tbl => .ok (unique_objs (lookupByClassTable tbl cls))
        | none => .error ("Cannot handle object of type " ++ container.className)

/-- `neo_tools.get_all_objs(container, classname)`.  A non-neo container
(no `file_origin`) is flattened; if flattening yields exactly the container
itself (`len(vals) == 1 and vals[0] is container`, the identity test
coinciding with structural equality here since the flattener only reyields
strictly smaller sub-objects), the unsupported-container `TypeError` is
raised; otherwise the collection recurses over the flattened values and
the concatenation is deduplicated by `unique_objs`.  Errors model the
raised `TypeError`, carrying the offending object's runtime type name. -/
def get_all_objs (container : NeoVal) (classname : Option String) :
    Except String (List NeoObj) :=
  match container with
  | .neoObj o => gao_domain o classname
  | c =>
    let vals := iter_flattened false c
    if h : vals = [c] then
      .error ("Cannot handle object of type " ++ typeName c)
    else
      Except.map unique_objs (concatMapM (fun x => get_all_objs x.1 classname) vals.attach)
termination_by sizeOf container
decreasing_by
all_goals
  rename_i c
  obtain ⟨x, hmem⟩ := x
  replace hmem : x ∈ iter_flattened false c := hmem
  replace h : ¬iter_flattened false c = [c] := h
  show sizeOf x < sizeOf c
  cases c with
  | int v => exact absurd (by simp [iter_flattened]) h
  | str s => exact absurd (by simp [iter_flattened]) h
  | ndarray d es => exact absurd (by simp [iter_flattened]) h
  | neoObj o => exact absurd (by simp [iter_flattened]) h
  | list es =>
    rw [iter_flattened, flattenSeq_eq] at hmem
    obtain ⟨e, he, hxe⟩ := List.mem_flatMap.1 hmem
    have h1 : sizeOf e < sizeOf es := List.sizeOf_lt_of_mem he
    have h2 := sizeOf_le_of_mem_iter_flattened (sizeOf e) e le_rfl _ hxe
    simp
    omega
  | tuple es =>
    rw [iter_flattened, flattenSeq_eq] at hmem
    obtain ⟨e, he, hxe⟩ := List.mem_flatMap.1 hmem
    have h1 : sizeOf e < sizeOf es := List.sizeOf_lt_of_mem he
    have h2 := sizeOf_le_of_mem_iter_flattened (sizeOf e) e le_rfl _ hxe
    simp
    omega
  | dict entries =>
    rw [iter_flattened, flattenDictVals_eq] at hmem
    obtain ⟨e, he, hxe⟩ := List.mem_flatMap.1 hmem
    obtain ⟨kv, hkv, rfl⟩ := List.mem_map.1 he
    have h1 : sizeOf kv < sizeOf entries := List.sizeOf_lt_of_mem hkv
    have h0 : sizeOf kv.2 ≤ sizeOf kv := by
      obtain ⟨a, b⟩ := kv
      simp
    have h2 := sizeOf_le_of_mem_iter_flattened (sizeOf kv.2) kv.2 le_rfl _ hxe
    simp
    omega

theorem get_all_objs_neoObj (o : NeoObj) (cls : Option String) :
    get_all_objs (.neoObj o) cls = gao_domain o cls := by
  rw [get_all_objs]

theorem get_all_objs_not_neo (c : NeoVal) (cls : Option String)
    (hno : has_file_origin c = false) :
    get_all_objs c cls =
      if iter_flattened false c = [c] then
        .error ("Cannot handle object of type " ++ typeName c)
      else
        Except.map unique_objs
          (concatMapM (fun x => get_all_objs x cls) (iter_flattened false c)) := by
  cases c with
  | neoObj o => simp [has_file_origin] at hno
  | int v =>
    rw [get_all_objs]
    swap
    · intro o h
      cases h
    · by_cases hl : iter_flattened false (NeoVal.int v) = [NeoVal.int v]
      · rw [dif_pos hl, if_pos hl]
      · rw [dif_neg hl, if_neg hl, concatMapM_attach (fun y => get_all_objs y cls)]
  | str s =>
    rw [get_all_objs]
    swap
    · intro o h
      cases h
    · by_cases hl : iter_flattened false (NeoVal.str s) = [NeoVal.str s]
      · rw [dif_pos hl, if_pos hl]
      · rw [dif_neg hl, if_neg hl, concatMapM_attach (fun y => get_all_objs y cls)]
  | list es =>
    rw [get_all_objs]
    swap
    · intro o h
      cases h
    · by_cases hl : iter_flattened false (NeoVal.list es) = [NeoVal.list es]
      · rw [dif_pos hl, if_pos hl]
      · rw [dif_neg hl, if_neg hl, concatMapM_attach (fun y => get_all_objs y cls)]
  | tuple es =>
    rw [get_all_objs]
    swap
    · intro o h
      cases h
    · by_cases hl : iter_flattened false (NeoVal.tuple es) = [NeoVal.tuple es]
      · rw [dif_pos hl, if_pos hl]
      · rw [dif_neg hl, if_neg hl, concatMapM_attach (fun y => get_all_objs y cls)]
  | dict entries =>
    rw [get_all_objs]
    swap
    · intro o h
      cases h
    · by_cases hl : iter_flattened false (NeoVal.dict entries) = [NeoVal.dict entries]
      · rw [dif_pos hl, if_pos hl]
      · rw [dif_neg hl, if_neg hl, concatMapM_attach (fun y => get_all_objs y cls)]
  | ndarray d es =>
    rw [get_all_objs]
    swap
    · intro o h
      cases h
    · by_cases hl : iter_flattened false (NeoVal.ndarray d es) = [NeoVal.ndarray d es]
      · rw [dif_pos hl, if_pos hl]
      · rw [dif_neg hl, if_neg hl, concatMapM_attach (fun y => get_all_objs y cls)]

/-- The neo objects contained in a value: the neo leaves of its
flattening (a neo object is its own single leaf). -/
def objsIn (c : NeoVal) : List NeoObj :=
  (iter_flattened false c).filterMap fun x =>
    match x with
    | .neoObj o => some o
    | _ => none

/-- Modelled from the spec: the Recursive Flattener's element-decomposition
rule applied for exactly one level of nesting — a list or tuple decomposes
into its elements, a dict into its values, and anything else (an atomic
leaf) stands alone.  Used to state that the collector's generic branch
behaves as one-level decomposition followed by recursive collection. -/
def oneLevelDecomposeSpec : NeoVal → List NeoVal
  | .list es => es
  | .tuple es => es
  | .dict entries => entries.map Prod.snd
  | v => [v]

/-- A Python argument for `general_tools.filter_strings`: a literal string
(substring test via `in`), a compiled pattern (its `search` method,
modelled as the predicate "search succeeds"), or a list of filters. -/
inductive PyFilter where
  | str (s : String)
  | regex (search : String → Bool)
  | list (fs : List PyFilter)

/-- Python `sub in name` substring containment. -/
def strContains (name sub : String) : Bool :=
  decide (List.IsInfix sub.toList name.toList)

/-- One in-place removal pass of `filter_strings`: iterate over the copy
`targs[:]` and `targs.remove(name)` (drop the first occurrence) for each
name failing the test. -/
def removePass (keep : String → Bool) (targs : List String) : List String :=
  targs.foldl (fun cur name => if keep name then cur else cur.erase name) targs

mutual

/-- `general_tools.filter_strings(targs, filters)`, returning the final
state of the in-place-mutated list.  An empty (falsy) filter returns the
list untouched; a string filter keeps names containing it; a regex filter
keeps names where `search` succeeds; a list of filters is applied in
sequence, each narrowing the survivors of the previous one. -/
def filter_strings : PyFilter → List String → List String
  | .str s, targs =>
    if s = "" then targs
    else removePass (fun name => strContains name s) targs
  | .regex search, targs => removePass (fun name => search name) targs
  | .list fs, targs => filter_strings_list fs targs

/-- The `for filt in filters: filter_strings(targs, filt)` loop. -/
def filter_strings_list : List PyFilter → List String → List String
  | [], targs => targs
  | f :: fs, targs => filter_strings_list fs (filter_strings f targs)

end

/-- Python `hasattr(obj, a)` over the modelled attribute namespace of a neo
object: the `file_origin` marker, the optional capabilities, the child-list
attributes, and the remaining plain attribute names. -/
def py_hasattr (o : NeoObj) (a : String) : Bool :=
  a == "file_origin" || (a == "children_recur" && o.children_recur.isSome) ||
  (a == "list_children_by_class" && o.list_children_by_class.isSome) ||
  (lookupChildAttr o a).isSome || o.extra_attrs.contains a

/-- `neo_tools.set_all_attrs(neoobj, attr, value, create)`.  Mutation is
modelled by its trace: the returned list logs every `setattr` call as
`(id(obj), attr, value)` in execution order.  Mirroring the source, the
inner `for child in getattr(obj, 'children_recur', [])` loop tests and
sets `obj` (lines 169-171), so each child iteration re-logs `obj`. -/
def set_all_attrs (neoobj : NeoVal) (attr : String) (value : String) (create : Bool) :
    Except String (List (Nat × String × String)) :=
  match get_all_objs neoobj none with
  | .error e => .error e
  | .ok objs =>
    .ok (objs.flatMap fun obj =>
      (if create || py_hasattr obj attr then [(obj.oid, attr, value)] else []) ++
      ((obj.children_recur.getD []).flatMap fun _child =>
        if create || py_hasattr obj attr then [(obj.oid, attr, value)] else []))

/-- A neo object as seen by `extract_neo_attrs`: its annotation dict, its
declared `_necessary_attrs` and `_recommended_attrs` (attribute name plus
whether the declaration tuple marks it array-valued, i.e.
`len(attr) >= 3 and attr[2]`), the optional `_quantity_attr` name, the
actual attribute values (`getattr(obj, name, None)`; a `none` value is
Python `None`, an absent name resolves to `None` too), and the `parents`
list, whose entries may be Python `None`. -/
inductive AttrObj where
  | mk (annots : List (String × Option String))
       (necessary_attrs : List (String × Bool))
       (recommended_attrs : List (String × Bool))
       (quantity_attr : Option String)
       (attr_vals : List (String × Option String))
       (parents : List (Option AttrObj))

def AttrObj.annots : AttrObj → List (String × Option String)
  | .mk a _ _ _ _ _ => a

def AttrObj.necessary_attrs : AttrObj → List (String × Bool)
  | .mk _ n _ _ _ _ => n

def AttrObj.recommended_attrs : AttrObj → List (String × Bool)
  | .mk _ _ r _ _ _ => r

def AttrObj.quantity_attr : AttrObj → Option String
  | .mk _ _ _ q _ _ => q

def AttrObj.attr_vals : AttrObj → List (String × Option String)
  | .mk _ _ _ _ v _ => v

def AttrObj.parents : AttrObj → List (Option AttrObj)
  | .mk _ _ _ _ _ p => p

/-- A Python dict of attribute values, as an association list without
duplicate keys (all operations below preserve that invariant). -/
abbrev AttrDict := List (String × Option String)

/-- Dict lookup: the value at a key, `none` when absent. -/
def dictLookup (d : AttrDict) (k : String) : Option (Option String) :=
  (d.find? (fun kv => kv.1 == k)).map Prod.snd

/-- Dict assignment `d[k] = v`: replace in place, or append a new entry. -/
def dictSet : AttrDict → String → Option String → AttrDict
  | [], k, v => [(k, v)]
  | (k', v') :: rest, k, v =>
    if k' = k then (k, v) :: rest else (k', v') :: dictSet rest k v

/-- Python `d1.update(d2)`: write every entry of `d2` into `d1`. -/
def dictUpdate (d1 d2 : AttrDict) : AttrDict :=
  d2.foldl (fun acc kv => dictSet acc kv.1 kv.2) d1

/-- `getattr(obj, name, None)` for the extraction model. -/
def attrLookup (obj : AttrObj) (name : String) : Option String :=
  (dictLookup obj.attr_vals name).join

/-- One iteration of the declared-attribute loop of `extract_neo_attrs`
(source lines 52-58): skip an array-valued declaration when `skip_array`,
skip the `_quantity_attr`, otherwise write the resolved value. -/
def declStep (obj : AttrObj) (skip_array : Bool) (attrs : AttrDict)
    (attr : String × Bool) : AttrDict :=
  if skip_array && attr.2 then attrs
  else if some attr.1 = obj.quantity_attr then attrs
  else dictSet attrs attr.1 (attrLookup obj attr.1)

/-- The child-only part of `extract_neo_attrs` (source lines 51-63): copy
the annotations, run the declared-attribute loop over
`_necessary_attrs + _recommended_attrs`, then drop `None` values when
`skip_none`. -/
def extract_own (obj : AttrObj) (skip_array skip_none : Bool) : AttrDict :=
  let attrs := dictUpdate [] obj.annots
  let attrs := (obj.necessary_attrs ++ obj.recommended_attrs).foldl
    (declStep obj skip_array) attrs
  if skip_none then attrs.filter (fun kv => kv.2.isSome) else attrs

mutual

/-- `neo_tools.extract_neo_attrs(obj, parents, child_first, skip_array,
skip_none)`: the child-only dict, then, when `parents` is requested, a
merge with each parent's recursive extraction — with `child_first` the
parent dict is updated with the child entries (child wins), otherwise the
child dict is updated with the parent entries (parent wins). -/
def extract_neo_attrs (obj : AttrObj) (parents child_first skip_array skip_none : Bool) :
    AttrDict :=
  match obj with
  | .mk annots nec rec_ qa av ps =>
    let attrs := extract_own (.mk annots nec rec_ qa av ps) skip_array skip_none
    if parents then parentFold ps attrs child_first skip_array skip_none else attrs

/-- The `for parent in getattr(obj, 'parents', [])` merge loop; `None`
parents are skipped. -/
def parentFold : List (Option AttrObj) → AttrDict → Bool → Bool → Bool → AttrDict
  | [], attrs, _, _, _ => attrs
  | none :: rest, attrs, cf, sa, sn => parentFold rest attrs cf sa sn
  | some p :: rest, attrs, cf, sa, sn =>
    let newattr := extract_neo_attrs p true cf sa sn
    parentFold rest (if cf then dictUpdate newattr attrs else dictUpdate attrs newattr) cf sa sn

end

/-- C5: with array-flattening disabled, flattening
`[[0, (1, 2), 3], (4, {'a': [5, (6, {'b': 7})]}), '8']` yields exactly
`[0, 1, 2, 3, 4, 5, 6, 7, '8']` in that order — depth-first left-to-right,
descending into lists, tuples and mapping values, never yielding mapping
keys and never descending into strings (`flatten(["ab", "cd"])` stays
`["ab", "cd"]`). -/
theorem claim_C5_flatten_nested_example :
    iter_flattened false
      (.list [.list [.int 0, .tuple [.int 1, .int 2], .int 3],
              .tuple [.int 4,
                      .dict [("a", .list [.int 5,
                                          .tuple [.int 6, .dict [("b", .int 7)]]])]],
              .str "8"])
      = [.int 0, .int 1, .int 2, .int 3, .int 4, .int 5, .int 6, .int 7, .str "8"] ∧
    iter_flattened false (.list [.str "ab", .str "cd"]) = [.str "ab", .str "cd"] := by
  constructor
  · simp [iter_flattened, flattenSeq, flattenDictVals]
  · simp [iter_flattened, flattenSeq]

/-- C10: an array-like value whose `ndim` is zero is yielded as a single
leaf by the flattener even when array-flattening is enabled, because the
`flat_ndarray and getattr(objs, 'ndim', False)` test treats the zero
dimensionality as falsy. -/
theorem claim_C10_zero_dim_array_is_leaf (elems : List NeoVal) :
    iter_flattened true (.ndarray 0 elems) = [.ndarray 0 elems] := by
  simp [iter_flattened]

/-- C8: filtering a list of strings with the list predicate `[p1, p2]`
leaves exactly the survivors of filtering with `p1` and then filtering
those survivors with `p2`, and filtering with an empty list of predicates
removes nothing. -/
theorem claim_C8_filter_conjunction (xs : List String) (p1 p2 : PyFilter) :
    filter_strings (.list [p1, p2]) xs
        = filter_strings p2 (filter_strings p1 xs) ∧
    filter_strings (.list []) xs = xs := by
  constructor
  · rw [filter_strings, filter_strings_list, filter_strings_list, filter_strings_list]
  · rw [filter_strings, filter_strings_list]

theorem exceptMap_error {f : List NeoObj → List NeoObj}
    {x : Except String (List NeoObj)} {e : String}
    (h : Except.map f x = .error e) : x = .error e := by
  cases x with
  | error e' => simpa [Except.map] using h
  | ok l => simp [Except.map] at h

theorem exceptMap_ok {f : List NeoObj → List NeoObj}
    {x : Except String (List NeoObj)} {l : List NeoObj}
    (h : Except.map f x = .ok l) : ∃ l0, x = .ok l0 ∧ l = f l0 := by
  cases x with
  | error e' => simp [Except.map] at h
  | ok l0 =>
    refine ⟨l0, rfl, ?_⟩
    simpa [Except.map] using h.symm

theorem gao_domain_error {o : NeoObj} {cls : Option String} {e : String}
    (h : gao_domain o cls = .error e) :
    e = "Cannot handle object of type " ++ o.className := by
  cases cls with
  | none => cases hcr : o.children_recur <;> simp [gao_domain, hcr] at h
  | some c =>
    rw [gao_domain] at h
    by_cases hcn : o.className = c
    · simp [hcn] at h
    · rw [if_neg hcn] at h
      cases hca : lookupChildAttr o (c.toLower ++ "s") <;> rw [hca] at h
      · cases htb : o.list_children_by_class <;> rw [htb] at h
        · cases h
          rfl
        · cases h
      · cases h

theorem has_file_origin_true {a : NeoVal} (h : has_file_origin a = true) :
    ∃ o, a = .neoObj o := by
  cases a <;> simp [has_file_origin] at h ⊢

theorem error_shape_of_leaf {a : NeoVal} {cls : Option String} {e : String}
    (hleaf : iter_flattened false a = [a]) (hfa : get_all_objs a cls = .error e) :
    ∃ t, e = "Cannot handle object of type " ++ t := by
  rcases Bool.eq_false_or_eq_true (has_file_origin a) with hyes | hno
  · obtain ⟨o, rfl⟩ := has_file_origin_true hyes
    rw [get_all_objs_neoObj] at hfa
    exact ⟨o.className, gao_domain_error hfa⟩
  · rw [get_all_objs_not_neo _ _ hno, if_pos hleaf] at hfa
    injection hfa with h'
    exact ⟨typeName a, h'.symm⟩

/-- C1: the collector's only failure mode is the unsupported-container
type error, and it hits exactly the unsupported shapes: (a) a non-neo
value the flattener cannot decompose (it yields only the value itself)
fails with the error carrying the value's runtime type; (b) a neo object
that does not match the requested class name and exposes neither the
pluralized child-list attribute nor `list_children_by_class` fails with
the error carrying its class name; (c) in particular `get_all_objs(42)`
fails this way; and (d) every error the collector ever returns carries
this message shape. -/
theorem claim_C1_unsupported_container_error :
    (∀ (c : NeoVal) (cls : Option String), has_file_origin c = false →
        iter_flattened false c = [c] →
        get_all_objs c cls = .error ("Cannot handle object of type " ++ typeName c)) ∧
    (∀ (o : NeoObj) (cls : String), o.className ≠ cls →
        lookupChildAttr o (cls.toLower ++ "s") = none →
        o.list_children_by_class = none →
        get_all_objs (.neoObj o) (some cls)
          = .error ("Cannot handle object of type " ++ o.className)) ∧
    get_all_objs (.int 42) none = .error "Cannot handle object of type int" ∧
    (∀ (c : NeoVal) (cls : Option String) (e : String),
        get_all_objs c cls = .error e →
          ∃ t, e = "Cannot handle object of type " ++ t) := by
  refine ⟨?_, ?_, ?_, ?_⟩
  · intro c cls h1 h2
    rw [get_all_objs_not_neo c cls h1, if_pos h2]
  · intro o cls h1 h2 h3
    rw [get_all_objs_neoObj, gao_domain, if_neg h1, h2, h3]
  · rw [get_all_objs_not_neo (.int 42) none rfl, if_pos (by simp [iter_flattened])]
    rfl
  · intro c cls e h
    rcases Bool.eq_false_or_eq_true (has_file_origin c) with hyes | hno
    · obtain ⟨o, rfl⟩ := has_file_origin_true hyes
      rw [get_all_objs_neoObj] at h
      exact ⟨o.className, gao_domain_error h⟩
    · rw [get_all_objs_not_neo _ _ hno] at h
      by_cases hl : iter_flattened false c = [c]
      · rw [if_pos hl] at h
        injection h with h'
        exact ⟨typeName c, h'.symm⟩
      · rw [if_neg hl] at h
        obtain ⟨a, ha, hfa⟩ := concatMapM_error (exceptMap_error h)
        exact error_shape_of_leaf (iter_flattened_of_mem (sizeOf c) c le_rfl a ha) hfa

theorem claim_C1_unsupported_container_error_witness :
    get_all_objs (.str "xy") none
      = .error ("Cannot handle object of type " ++ typeName (.str "xy")) :=
  claim_C1_unsupported_container_error.1 (.str "xy") none rfl (by simp [iter_flattened])

theorem nodup_unique_objs (l : List NeoObj) :
    ((unique_objs l).map NeoObj.oid).Nodup :=
  (uniqueAux_nodup [] l).1

theorem gao_domain_ok_nodup {o : NeoObj} {cls : Option String} {l : List NeoObj}
    (h : gao_domain o cls = .ok l) : (l.map NeoObj.oid).Nodup := by
  cases cls with
  | none =>
    cases hcr : o.children_recur with
    | some ch =>
      simp [gao_domain, hcr] at h
      subst h
      exact nodup_unique_objs _
    | none =>
      simp [gao_domain, hcr] at h
      subst h
      simp
  | some cstr =>
    rw [gao_domain] at h
    by_cases hcn : o.className = cstr
    · rw [if_pos hcn] at h
      injection h with h'
      subst h'
      simp
    · rw [if_neg hcn] at h
      cases hca : lookupChildAttr o (cstr.toLower ++ "s") with
      | some vals =>
        rw [hca] at h
        simp at h
        subst h
        exact nodup_unique_objs _
      | none =>
        rw [hca] at h
        cases htb : o.list_children_by_class with
        | some tbl =>
          rw [htb] at h
          simp at h
          subst h
          exact nodup_unique_objs _
        | none =>
          rw [htb] at h
          exact Except.noConfusion h

/-- C3: the collector's result never repeats an object identity, and the
deduplication helper keeps, for each identity, exactly its first
occurrence in first-seen order: it returns a sublist of its input (order
preserved), covers every input identity, and is unchanged by deleting a
later duplicate of an earlier object. -/
theorem claim_C3_identity_dedup :
    (∀ (c : NeoVal) (cls : Option String) (l : List NeoObj),
        get_all_objs c cls = .ok l → (l.map NeoObj.oid).Nodup) ∧
    (∀ objs : List NeoObj, List.Sublist (unique_objs objs) objs) ∧
    (∀ (objs : List NeoObj) (o : NeoObj), o ∈ objs →
        ∃ o' ∈ unique_objs objs, o'.oid = o.oid) ∧
    (∀ (A B : List NeoObj) (o : NeoObj), (∃ a ∈ A, a.oid = o.oid) →
        unique_objs (A ++ o :: B) = unique_objs (A ++ B)) := by
  refine ⟨?_, ?_, ?_, ?_⟩
  · intro c cls l h
    rcases Bool.eq_false_or_eq_true (has_file_origin c) with hyes | hno
    · obtain ⟨o, rfl⟩ := has_file_origin_true hyes
      rw [get_all_objs_neoObj] at h
      exact gao_domain_ok_nodup h
    · rw [get_all_objs_not_neo _ _ hno] at h
      by_cases hl : iter_flattened false c = [c]
      · rw [if_pos hl] at h
        exact Except.noConfusion h
      · rw [if_neg hl] at h
        obtain ⟨l0, _, rfl⟩ := exceptMap_ok h
        exact nodup_unique_objs l0
  · intro objs
    exact uniqueAux_sublist [] objs
  · intro objs o ho
    rcases uniqueAux_covers [] ho with hc | hc
    · simp at hc
    · exact hc
  · intro A B o ⟨a, ha, hoid⟩
    exact uniqueAux_drop_dup B o A [] (Or.inr ⟨a, ha, hoid⟩)

/-- A leaf `SpikeTrain`-like data object (no container capabilities). -/
def stA : NeoObj := .mk 1 "SpikeTrain" none [] none []

/-- A `Segment`-like container holding `stA`, reachable both through
`children_recur` and through the `spiketrains` child-list attribute. -/
def segA : NeoObj := .mk 2 "Segment" (some [stA]) [("spiketrains", [stA])] none []

theorem get_all_objs_dup_eval :
    get_all_objs (.list [.neoObj stA, .neoObj stA]) none = .ok [stA] := by
  have hg : get_all_objs (.neoObj stA) none = .ok [stA] := by
    rw [get_all_objs_neoObj]
    simp [gao_domain, stA, NeoObj.children_recur]
  have hflat : iter_flattened false (.list [.neoObj stA, .neoObj stA])
      = [.neoObj stA, .neoObj stA] := by
    simp [iter_flattened, flattenSeq]
  rw [get_all_objs_not_neo (.list [.neoObj stA, .neoObj stA]) none rfl, hflat,
    if_neg (by simp)]
  rw [concatMapM, hg, concatMapM, hg, concatMapM]
  simp [Except.map, unique_objs, uniqueAux, stA, NeoObj.oid]

theorem claim_C3_identity_dedup_witness :
    (([stA].map NeoObj.oid)).Nodup :=
  claim_C3_identity_dedup.1 (.list [.neoObj stA, .neoObj stA]) none [stA]
    get_all_objs_dup_eval

theorem gao_domain_typed {o : NeoObj} {cls : String} {l : List NeoObj}
    (hattr : ∀ x ∈ (lookupChildAttr o (cls.toLower ++ "s")).getD [], x.className = cls)
    (htbl : ∀ tbl, o.list_children_by_class = some tbl →
        ∀ x ∈ lookupByClassTable tbl cls, x.className = cls)
    (h : gao_domain o (some cls) = .ok l) : ∀ x ∈ l, x.className = cls := by
  rw [gao_domain] at h
  by_cases hcn : o.className = cls
  · rw [if_pos hcn] at h
    injection h with h'
    subst h'
    intro x hx
    simp at hx
    subst hx
    exact hcn
  · rw [if_neg hcn] at h
    cases hca : lookupChildAttr o (cls.toLower ++ "s") with
    | some vals =>
      rw [hca] at h
      simp at h
      subst h
      intro x hx
      exact hattr x (by simp [hca]; exact mem_of_mem_uniqueAux hx)
    | none =>
      rw [hca] at h
      cases htb : o.list_children_by_class with
      | some tbl =>
        rw [htb] at h
        simp at h
        subst h
        intro x hx
        exact htbl tbl htb x (mem_of_mem_uniqueAux hx)
      | none =>
        rw [htb] at h
        exact Except.noConfusion h

/-- C4: whenever every neo object contained in the container only offers
children of exactly the requested (non-empty) class name through its
pluralized child-list attribute and its `list_children_by_class` method,
every object the collector returns has declared class name exactly equal
to the requested name — no object of any other type appears. -/
theorem claim_C4_collector_type_filter (c : NeoVal) (cls : String) (l : List NeoObj) :
    cls ≠ "" →
    (∀ o ∈ objsIn c,
      (∀ x ∈ (lookupChildAttr o (cls.toLower ++ "s")).getD [], x.className = cls) ∧
      (∀ tbl, o.list_children_by_class = some tbl →
          ∀ x ∈ lookupByClassTable tbl cls, x.className = cls)) →
    get_all_objs c (some cls) = .ok l → ∀ x ∈ l, x.className = cls := by
  intro _hne hyp h
  rcases Bool.eq_false_or_eq_true (has_file_origin c) with hyes | hno
  · obtain ⟨o, rfl⟩ := has_file_origin_true hyes
    have ho : o ∈ objsIn (.neoObj o) := by simp [objsIn, iter_flattened]
    rw [get_all_objs_neoObj] at h
    exact gao_domain_typed (hyp o ho).1 (hyp o ho).2 h
  · rw [get_all_objs_not_neo _ _ hno] at h
    by_cases hl : iter_flattened false c = [c]
    · rw [if_pos hl] at h
      exact Except.noConfusion h
    · rw [if_neg hl] at h
      obtain ⟨L, hL, rfl⟩ := exceptMap_ok h
      intro x hx
      obtain ⟨a, ha, la, hfa, hxla⟩ := concatMapM_ok_mem hL x (mem_of_mem_uniqueAux hx)
      have hleaf := iter_flattened_of_mem (sizeOf c) c le_rfl a ha
      rcases Bool.eq_false_or_eq_true (has_file_origin a) with hay | han
      · obtain ⟨o, rfl⟩ := has_file_origin_true hay
        have ho : o ∈ objsIn c := by
          rw [objsIn, List.mem_filterMap]
          exact ⟨.neoObj o, ha, rfl⟩
        rw [get_all_objs_neoObj] at hfa
        exact gao_domain_typed (hyp o ho).1 (hyp o ho).2 hfa x hxla
      · rw [get_all_objs_not_neo _ _ han, if_pos hleaf] at hfa
        exact Except.noConfusion hfa

/-- A `Segment`-like container exposing `stA` only through its
`list_children_by_class` method. -/
def segB : NeoObj := .mk 3 "Segment" none [] (some [("SpikeTrain", [stA])]) []

theorem get_all_objs_segB_eval :
    get_all_objs (.list [.neoObj segB]) (some "SpikeTrain") = .ok [stA] := by
  have hg : get_all_objs (.neoObj segB) (some "SpikeTrain") = .ok [stA] := by
    rw [get_all_objs_neoObj, gao_domain]
    rw [if_neg (by simp [segB, NeoObj.className])]
    have hca : lookupChildAttr segB ("SpikeTrain".toLower ++ "s") = none := by
      simp [lookupChildAttr, segB, NeoObj.childAttrs]
    rw [hca]
    simp [segB, NeoObj.list_children_by_class, lookupByClassTable, unique_objs,
      uniqueAux]
  have hflat : iter_flattened false (.list [.neoObj segB]) = [.neoObj segB] := by
    simp [iter_flattened, flattenSeq]
  rw [get_all_objs_not_neo (.list [.neoObj segB]) (some "SpikeTrain") rfl, hflat,
    if_neg (by simp)]
  rw [concatMapM, hg, concatMapM]
  simp [Except.map, unique_objs, uniqueAux]

theorem claim_C4_collector_type_filter_witness :
    stA.className = "SpikeTrain" :=
  claim_C4_collector_type_filter (.list [.neoObj segB]) "SpikeTrain" [stA]
    (by simp)
    (by
      intro o ho
      have : o = segB := by
        simpa [objsIn, iter_flattened, flattenSeq] using ho
      subst this
      refine ⟨?_, ?_⟩
      · simp [lookupChildAttr, segB, NeoObj.childAttrs]
      · intro tbl htbl x hx
        simp [segB, NeoObj.list_children_by_class] at htbl
        subst htbl
        simp [lookupByClassTable] at hx
        subst hx
        simp [stA, NeoObj.className])
    get_all_objs_segB_eval stA (List.mem_singleton.2 rfl)

theorem concatMapM_singleton (f : α → Except String (List β)) (x : α) :
    concatMapM f [x] = f x := by
  rw [concatMapM, concatMapM]
  cases f x <;> simp

theorem exceptMap_error_eq {f : List NeoObj → List NeoObj} {e : String} :
    Except.map f (.error e : Except String (List NeoObj)) = .error e := by
  simp [Except.map]

theorem collect_flat_cases (cls : Option String) (e : NeoVal) :
    concatMapM (fun v => get_all_objs v cls) (iter_flattened false e)
        = get_all_objs e cls ∨
    (∃ l, concatMapM (fun v => get_all_objs v cls) (iter_flattened false e) = .ok l ∧
        get_all_objs e cls = .ok (unique_objs l)) := by
  rcases Bool.eq_false_or_eq_true (has_file_origin e) with hyes | hno
  · obtain ⟨o, rfl⟩ := has_file_origin_true hyes
    left
    have : iter_flattened false (.neoObj o) = [.neoObj o] := by simp [iter_flattened]
    rw [this, concatMapM_singleton]
  · by_cases hl : iter_flattened false e = [e]
    · left
      rw [hl, concatMapM_singleton]
    · rw [get_all_objs_not_neo _ _ hno, if_neg hl]
      cases hr : concatMapM (fun v => get_all_objs v cls) (iter_flattened false e) with
      | error er => left; rw [exceptMap_error_eq]
      | ok l => right; exact ⟨l, rfl, by simp [Except.map]⟩

theorem collect_flatMap_rel (cls : Option String) : ∀ es : List NeoVal,
    (∀ e, concatMapM (fun v => get_all_objs v cls) (es.flatMap (iter_flattened false))
            = .error e
        ↔ concatMapM (fun v => get_all_objs v cls) es = .error e) ∧
    (∀ l1 l2,
        concatMapM (fun v => get_all_objs v cls) (es.flatMap (iter_flattened false))
          = .ok l1 →
        concatMapM (fun v => get_all_objs v cls) es = .ok l2 →
        ∀ s, uniqueAux s l1 = uniqueAux s l2) := by
  intro es
  induction es with
  | nil =>
    constructor
    · intro e
      simp [concatMapM]
    · intro l1 l2 h1 h2 s
      have e1 : l1 = [] := by simpa [concatMapM] using h1.symm
      have e2 : l2 = [] := by simpa [concatMapM] using h2.symm
      rw [e1, e2]
  | cons e es ih =>
    obtain ⟨ihErr, ihOk⟩ := ih
    rw [List.flatMap_cons]
    rcases collect_flat_cases cls e with hK | ⟨l, hKd, hKe⟩
    · cases hA : concatMapM (fun v => get_all_objs v cls) (iter_flattened false e) with
      | error ea =>
        have hGe : get_all_objs e cls = .error ea := by rw [← hK, hA]
        constructor
        · intro e'
          rw [concatMapM_append_err1 hA, concatMapM]
          rw [hGe]
        · intro l1 l2 h1 h2 s
          rw [concatMapM_append_err1 hA] at h1
          cases h1
      | ok la =>
        have hGe : get_all_objs e cls = .ok la := by rw [← hK, hA]
        cases hRd : concatMapM (fun v => get_all_objs v cls)
            (es.flatMap (iter_flattened false)) with
        | error er =>
          have hRi : concatMapM (fun v => get_all_objs v cls) es = .error er :=
            (ihErr er).1 hRd
          constructor
          · intro e'
            rw [concatMapM_append_err2 hA hRd, concatMapM, hGe, hRi]
          · intro l1 l2 h1 h2 s
            rw [concatMapM_append_err2 hA hRd] at h1
            cases h1
        | ok ld =>
          cases hRi : concatMapM (fun v => get_all_objs v cls) es with
          | error er =>
            rw [(ihErr er).2 hRi] at hRd
            exact Except.noConfusion hRd
          | ok li =>
            constructor
            · intro e'
              rw [concatMapM_append_ok hA hRd, concatMapM, hGe, hRi]
              simp
            · intro l1 l2 h1 h2 s
              rw [concatMapM_append_ok hA hRd] at h1
              rw [concatMapM, hGe, hRi] at h2
              cases h1
              cases h2
              rw [uniqueAux_append, uniqueAux_append]
              rw [ihOk ld li hRd hRi]
    · cases hRd : concatMapM (fun v => get_all_objs v cls)
          (es.flatMap (iter_flattened false)) with
      | error er =>
        have hRi : concatMapM (fun v => get_all_objs v cls) es = .error er :=
          (ihErr er).1 hRd
        constructor
        · intro e'
          rw [concatMapM_append_err2 hKd hRd, concatMapM, hKe, hRi]
        · intro l1 l2 h1 h2 s
          rw [concatMapM_append_err2 hKd hRd] at h1
          cases h1
      | ok ld =>
        cases hRi : concatMapM (fun v => get_all_objs v cls) es with
        | error er =>
          rw [(ihErr er).2 hRi] at hRd
          exact Except.noConfusion hRd
        | ok li =>
          constructor
          · intro e'
            rw [concatMapM_append_ok hKd hRd, concatMapM, hKe, hRi]
            simp
          · intro l1 l2 h1 h2 s
            rw [concatMapM_append_ok hKd hRd] at h1
            rw [concatMapM, hKe, hRi] at h2
            cases h1
            cases h2
            calc uniqueAux s (l ++ ld)
                = uniqueAux s l ++ uniqueAux (l.map NeoObj.oid ++ s) ld := by
                  rw [uniqueAux_append]
              _ = uniqueAux s l ++ uniqueAux (l.map NeoObj.oid ++ s) li := by
                  rw [ihOk ld li hRd hRi]
              _ = uniqueAux s (l ++ li) := by rw [uniqueAux_append]
              _ = uniqueAux s (unique_objs l ++ li) :=
                  (uniqueAux_idem l s [] li (by simp)).symm

theorem collect_flatMap_eq (cls : Option String) (es : List NeoVal) :
    Except.map unique_objs
        (concatMapM (fun v => get_all_objs v cls) (es.flatMap (iter_flattened false)))
      = Except.map unique_objs (concatMapM (fun v => get_all_objs v cls) es) := by
  obtain ⟨hErr, hOk⟩ := collect_flatMap_rel cls es
  cases hRd : concatMapM (fun v => get_all_objs v cls)
      (es.flatMap (iter_flattened false)) with
  | error er =>
    rw [(hErr er).1 hRd]
  | ok l1 =>
    cases hRi : concatMapM (fun v => get_all_objs v cls) es with
    | error er =>
      rw [(hErr er).2 hRi] at hRd
      exact Except.noConfusion hRd
    | ok l2 =>
      have := hOk l1 l2 hRd hRi []
      simp [Except.map, unique_objs]
      exact this

/-- C2: on a container without the `file_origin` marker, the collector
behaves exactly as: decompose the container by one level of nesting into
its candidate sub-containers, recursively collect from each candidate with
the same class name, and concatenate (and deduplicate) the results.  The
code's single deep flatten followed by recursion is extensionally equal to
this one-level description. -/
theorem claim_C2_one_level_decompose (c : NeoVal) (cls : Option String)
    (hno : has_file_origin c = false) :
    get_all_objs c cls
      = Except.map unique_objs
          (concatMapM (fun y => get_all_objs y cls) (oneLevelDecomposeSpec c)) := by
  cases c with
  | neoObj o => simp [has_file_origin] at hno
  | int v =>
    have herr : get_all_objs (.int v) cls
        = .error ("Cannot handle object of type " ++ typeName (.int v)) := by
      rw [get_all_objs_not_neo (.int v) cls rfl, if_pos (by simp [iter_flattened])]
    rw [herr]
    simp only [oneLevelDecomposeSpec]
    rw [concatMapM_singleton, herr, exceptMap_error_eq]
  | str s =>
    have herr : get_all_objs (.str s) cls
        = .error ("Cannot handle object of type " ++ typeName (.str s)) := by
      rw [get_all_objs_not_neo (.str s) cls rfl, if_pos (by simp [iter_flattened])]
    rw [herr]
    simp only [oneLevelDecomposeSpec]
    rw [concatMapM_singleton, herr, exceptMap_error_eq]
  | ndarray d es =>
    have herr : get_all_objs (.ndarray d es) cls
        = .error ("Cannot handle object of type " ++ typeName (.ndarray d es)) := by
      rw [get_all_objs_not_neo (.ndarray d es) cls rfl,
        if_pos (by simp [iter_flattened])]
    rw [herr]
    simp only [oneLevelDecomposeSpec]
    rw [concatMapM_singleton, herr, exceptMap_error_eq]
  | list es =>
    have hne : iter_flattened false (.list es) ≠ [.list es] :=
      iter_flattened_ne_singleton_self _ (Or.inl ⟨es, rfl⟩)
    rw [get_all_objs_not_neo (.list es) cls rfl, if_neg hne]
    simp only [oneLevelDecomposeSpec]
    have hflat : iter_flattened false (.list es) = es.flatMap (iter_flattened false) := by
      rw [iter_flattened, flattenSeq_eq]
    rw [hflat]
    exact collect_flatMap_eq cls es
  | tuple es =>
    have hne : iter_flattened false (.tuple es) ≠ [.tuple es] :=
      iter_flattened_ne_singleton_self _ (Or.inr (Or.inl ⟨es, rfl⟩))
    rw [get_all_objs_not_neo (.tuple es) cls rfl, if_neg hne]
    simp only [oneLevelDecomposeSpec]
    have hflat : iter_flattened false (.tuple es) = es.flatMap (iter_flattened false) := by
      rw [iter_flattened, flattenSeq_eq]
    rw [hflat]
    exact collect_flatMap_eq cls es
  | dict entries =>
    have hne : iter_flattened false (.dict entries) ≠ [.dict entries] :=
      iter_flattened_ne_singleton_self _ (Or.inr (Or.inr ⟨entries, rfl⟩))
    rw [get_all_objs_not_neo (.dict entries) cls rfl, if_neg hne]
    simp only [oneLevelDecomposeSpec]
    have hflat : iter_flattened false (.dict entries)
        = (entries.map Prod.snd).flatMap (iter_flattened false) := by
      rw [iter_flattened, flattenDictVals_eq]
    rw [hflat]
    exact collect_flatMap_eq cls (entries.map Prod.snd)

theorem claim_C2_one_level_decompose_witness :
    get_all_objs (.list [.neoObj stA]) none
      = Except.map unique_objs
          (concatMapM (fun y => get_all_objs y none)
            (oneLevelDecomposeSpec (.list [.neoObj stA]))) :=
  claim_C2_one_level_decompose (.list [.neoObj stA]) none rfl

theorem get_all_objs_stA_eval : get_all_objs (.neoObj stA) none = .ok [stA] := by
  rw [get_all_objs_neoObj]
  simp [gao_domain, stA, NeoObj.children_recur]

theorem get_all_objs_segA_eval :
    get_all_objs (.neoObj segA) none = .ok [segA, stA] := by
  rw [get_all_objs_neoObj]
  simp [gao_domain, segA, NeoObj.children_recur, unique_objs, uniqueAux, NeoObj.oid,
    stA]

/-- C6 (counterexample): calling `set_all_attrs` with `create=False` on an
object lacking the attribute completes normally with no mutation — it does
not raise the host runtime's attribute-resolution failure, refuting the
claim that the attribute access raises rather than silently skipping. -/
theorem claim_C6_counterexample :
    set_all_attrs (.neoObj stA) "foo" "v" false = .ok [] := by
  rw [set_all_attrs, get_all_objs_stA_eval]
  simp [py_hasattr, stA, NeoObj.children_recur, NeoObj.list_children_by_class,
    lookupChildAttr, NeoObj.childAttrs, NeoObj.extra_attrs, NeoObj.oid]

/-- C6 (amended): with `create=false`, `set_all_attrs` never raises a
missing-attribute error — when no collected object has the attribute the
call completes normally and performs no `setattr` at all; objects lacking
the attribute are silently skipped. -/
theorem claim_C6_silent_skip (neoobj : NeoVal) (attr value : String)
    (objs : List NeoObj) (hobjs : get_all_objs neoobj none = .ok objs)
    (hnone : ∀ o ∈ objs, py_hasattr o attr = false) :
    set_all_attrs neoobj attr value false = .ok [] := by
  rw [set_all_attrs, hobjs]
  have hnil : (objs.flatMap fun obj =>
      (if false || py_hasattr obj attr then [(obj.oid, attr, value)] else []) ++
      ((obj.children_recur.getD []).flatMap fun _child =>
        if false || py_hasattr obj attr then [(obj.oid, attr, value)] else []))
      = [] := by
    rw [List.flatMap_eq_nil_iff]
    intro o ho
    simp [hnone o ho]
  exact congrArg Except.ok hnil

theorem claim_C6_silent_skip_witness :
    set_all_attrs (.neoObj segA) "bar" "v" false = .ok [] :=
  claim_C6_silent_skip (.neoObj segA) "bar" "v" [segA, stA] get_all_objs_segA_eval
    (by decide)

theorem dictLookup_nil (k : String) : dictLookup [] k = none := rfl

theorem dictLookup_dictSet_ne (d : AttrDict) {k' k : String} (v : Option String)
    (h : k' ≠ k) : dictLookup (dictSet d k' v) k = dictLookup d k := by
  induction d with
  | nil => simp [dictSet, dictLookup, h]
  | cons kv rest ih =>
    obtain ⟨k2, v2⟩ := kv
    rw [dictSet]
    by_cases h2 : k2 = k'
    · rw [if_pos h2]
      have hk2 : k2 ≠ k := by rw [h2]; exact h
      have hb1 : (k' == k) = false := by simp [h]
      have hb2 : (k2 == k) = false := by simp [hk2]
      simp only [dictLookup, List.find?, hb1, hb2]
    · rw [if_neg h2]
      by_cases h3 : k2 = k
      · subst h3
        simp [dictLookup, List.find?]
      · have hb : (k2 == k) = false := by simp [h3]
        simp only [dictLookup, List.find?, hb] at ih ⊢
        exact ih

theorem dictLookup_cons_none {k2 k : String} {v2 : Option String} {rest : AttrDict}
    (h : dictLookup ((k2, v2) :: rest) k = none) :
    k2 ≠ k ∧ dictLookup rest k = none := by
  simp only [dictLookup, List.find?] at h ⊢
  by_cases h2 : k2 = k
  · simp [h2] at h
  · have : (k2 == k) = false := by simp [h2]
    rw [this] at h
    exact ⟨h2, h⟩

theorem dictUpdate_cons (d1 : AttrDict) (k2 : String) (v2 : Option String)
    (rest : AttrDict) :
    dictUpdate d1 ((k2, v2) :: rest) = dictUpdate (dictSet d1 k2 v2) rest := rfl

theorem dictLookup_dictUpdate_none {d2 : AttrDict} {k : String}
    (h : dictLookup d2 k = none) (d1 : AttrDict) :
    dictLookup (dictUpdate d1 d2) k = dictLookup d1 k := by
  induction d2 generalizing d1 with
  | nil => rfl
  | cons kv rest ih =>
    obtain ⟨k2, v2⟩ := kv
    obtain ⟨hne, hrest⟩ := dictLookup_cons_none h
    rw [dictUpdate_cons, ih hrest, dictLookup_dictSet_ne d1 v2 hne]

theorem dictLookup_filter_none {d : AttrDict} {k : String}
    (p : String × Option String → Bool) (h : dictLookup d k = none) :
    dictLookup (d.filter p) k = none := by
  induction d with
  | nil => rfl
  | cons kv rest ih =>
    obtain ⟨k2, v2⟩ := kv
    obtain ⟨hne, hrest⟩ := dictLookup_cons_none h
    rw [List.filter_cons]
    by_cases hp : p (k2, v2)
    · rw [if_pos hp]
      simp only [dictLookup, List.find?]
      have : (k2 == k) = false := by simp [hne]
      rw [this]
      exact ih hrest
    · rw [if_neg hp]
      exact ih hrest

/-- The keys of an attribute dict are pairwise distinct. -/
def keysNodup (d : AttrDict) : Prop := (d.map Prod.fst).Nodup

theorem keysNodup_nil : keysNodup [] := by simp [keysNodup]

theorem dictLookup_eq_none_of_not_mem_keys {d : AttrDict} {k : String}
    (h : k ∉ d.map Prod.fst) : dictLookup d k = none := by
  induction d with
  | nil => rfl
  | cons kv rest ih =>
    obtain ⟨k2, v2⟩ := kv
    simp only [List.map_cons, List.mem_cons] at h
    push_neg at h
    simp only [dictLookup, List.find?]
    have : (k2 == k) = false := by simp; exact fun hc => h.1 hc.symm
    rw [this]
    exact ih h.2

theorem keys_dictSet (d : AttrDict) (k : String) (v : Option String) :
    (dictSet d k v).map Prod.fst = if k ∈ d.map Prod.fst then d.map Prod.fst
      else d.map Prod.fst ++ [k] := by
  induction d with
  | nil => simp [dictSet]
  | cons kv rest ih =>
    obtain ⟨k2, v2⟩ := kv
    rw [dictSet]
    by_cases h2 : k2 = k
    · subst h2
      simp
    · rw [if_neg h2]
      simp only [List.map_cons, List.mem_cons]
      rw [ih]
      by_cases hk : k ∈ rest.map Prod.fst
      · simp [hk, h2]
      · have hkk2 : ¬(k = k2) := fun hc => h2 hc.symm
        simp [hk, hkk2]

theorem keysNodup_dictSet {d : AttrDict} (k : String) (v : Option String)
    (h : keysNodup d) : keysNodup (dictSet d k v) := by
  rw [keysNodup, keys_dictSet]
  by_cases hk : k ∈ d.map Prod.fst
  · rw [if_pos hk]
    exact h
  · rw [if_neg hk]
    simp [keysNodup] at h
    simp [List.nodup_append, h, hk]

theorem keysNodup_dictUpdate {d1 : AttrDict} (d2 : AttrDict) (h : keysNodup d1) :
    keysNodup (dictUpdate d1 d2) := by
  induction d2 generalizing d1 with
  | nil => exact h
  | cons kv rest ih =>
    rw [dictUpdate, List.foldl_cons]
    exact ih (keysNodup_dictSet kv.1 kv.2 h)

theorem keysNodup_filter {d : AttrDict} (p : String × Option String → Bool)
    (h : keysNodup d) : keysNodup (d.filter p) := by
  rw [keysNodup]
  exact ((List.filter_sublist d).map Prod.fst).nodup h

theorem keysNodup_foldl_declStep (obj : AttrObj) (sa : Bool) :
    ∀ (ats : List (String × Bool)) (attrs : AttrDict), keysNodup attrs →
      keysNodup (ats.foldl (declStep obj sa) attrs) := by
  intro ats
  induction ats with
  | nil => exact fun attrs h => h
  | cons a rest ih =>
    intro attrs h
    rw [List.foldl_cons]
    refine ih _ ?_
    rw [declStep]
    by_cases h1 : sa && a.2
    · rw [if_pos h1]
      exact h
    · rw [if_neg h1]
      by_cases h2 : some a.1 = obj.quantity_attr
      · rw [if_pos h2]
        exact h
      · rw [if_neg h2]
        exact keysNodup_dictSet _ _ h

theorem keysNodup_extract_own (obj : AttrObj) (sa sn : Bool) :
    keysNodup (extract_own obj sa sn) := by
  rw [extract_own]
  have h1 := keysNodup_dictUpdate obj.annots keysNodup_nil
  have h2 := keysNodup_foldl_declStep obj sa
    (obj.necessary_attrs ++ obj.recommended_attrs) _ h1
  cases sn with
  | true => simpa using keysNodup_filter _ h2
  | false => simpa using h2

theorem dictLookup_filter_isSome_of_some_none {d : AttrDict} {k : String}
    (hnd : keysNodup d) (h : dictLookup d k = some none) :
    dictLookup (d.filter (fun kv => kv.2.isSome)) k = none := by
  induction d with
  | nil => simp [dictLookup, List.find?] at h
  | cons kv rest ih =>
    obtain ⟨k2, v2⟩ := kv
    have hnd2 : keysNodup rest := by
      simp only [keysNodup, List.map_cons, List.nodup_cons] at hnd
      exact hnd.2
    have hk2mem : k2 ∉ rest.map Prod.fst := by
      simp only [keysNodup, List.map_cons, List.nodup_cons] at hnd
      exact hnd.1
    rw [List.filter_cons]
    by_cases hke : k2 = k
    · subst hke
      have hv2 : v2 = none := by
        simp [dictLookup, List.find?] at h
        exact h
      subst hv2
      rw [if_neg (by simp)]
      exact dictLookup_filter_none _ (dictLookup_eq_none_of_not_mem_keys hk2mem)
    · have hbe : (k2 == k) = false := by simp [hke]
      have hrest : dictLookup rest k = some none := by
        simpa [dictLookup, List.find?, hbe] using h
      by_cases hp : (v2 : Option String).isSome
      · rw [if_pos (by simpa using hp)]
        simp only [dictLookup, List.find?]
        rw [hbe]
        exact ih hnd2 hrest
      · rw [if_neg (by simpa using hp)]
        exact ih hnd2 hrest

theorem foldl_declStep_absent {obj : AttrObj} {q : String} (sa : Bool)
    (hq : obj.quantity_attr = some q) :
    ∀ (ats : List (String × Bool)) (attrs : AttrDict), dictLookup attrs q = none →
      dictLookup (ats.foldl (declStep obj sa) attrs) q = none := by
  intro ats
  induction ats with
  | nil => exact fun attrs h => h
  | cons a rest ih =>
    intro attrs h
    rw [List.foldl_cons]
    refine ih _ ?_
    rw [declStep]
    by_cases h1 : sa && a.2
    · rw [if_pos h1]
      exact h
    · rw [if_neg h1]
      by_cases h2 : some a.1 = obj.quantity_attr
      · rw [if_pos h2]
        exact h
      · rw [if_neg h2]
        have hne : a.1 ≠ q := by
          intro hc
          exact h2 (by rw [hc, hq])
        rw [dictLookup_dictSet_ne attrs _ hne]
        exact h

theorem extract_own_absent {obj : AttrObj} {q : String} (sa sn : Bool)
    (hq : obj.quantity_attr = some q) (ha : dictLookup obj.annots q = none) :
    dictLookup (extract_own obj sa sn) q = none := by
  rw [extract_own]
  have h0 : dictLookup (dictUpdate [] obj.annots) q = none := by
    rw [dictLookup_dictUpdate_none ha]
    rfl
  have h1 := foldl_declStep_absent sa hq (obj.necessary_attrs ++ obj.recommended_attrs)
    _ h0
  cases sn with
  | true => simpa using dictLookup_filter_none _ h1
  | false => simpa using h1

/-- C7 (counterexample): the designated `_quantity_attr` name can appear as
a key of the extracted mapping — the quantity check only guards the
declared-attribute loop, so a same-named key supplied by the annotations
dict survives into the result, refuting "never contains that attribute's
name as a key". -/
def qObj : AttrObj := .mk [("q", some "v")] [] [("q", false)] (some "q") [] []

theorem claim_C7_counterexample :
    qObj.quantity_attr = some "q" ∧
    dictLookup (extract_neo_attrs qObj false true false false) "q" = some (some "v") := by
  constructor
  · rfl
  · simp only [qObj]
    rw [extract_neo_attrs]
    simp [extract_own, dictUpdate, dictSet, dictLookup, declStep, attrLookup,
      AttrObj.annots, AttrObj.necessary_attrs, AttrObj.recommended_attrs,
      AttrObj.quantity_attr, AttrObj.attr_vals, List.find?]

/-- C7 (amended): the declared-attribute loop never inserts the designated
`_quantity_attr` key: for an object whose annotations dict lacks that key,
the child-only extraction never contains it, for every combination of the
`child_first`, `skip_array` and `skip_none` settings, and the same holds
with `parents=true` when the object has no parents.  (The key can still
enter through the annotations dict — the counterexample — or through a
parent's extraction.) -/
theorem claim_C7_quantity_excluded (obj : AttrObj) (q : String) (cf sa sn : Bool)
    (hq : obj.quantity_attr = some q) (ha : dictLookup obj.annots q = none) :
    dictLookup (extract_neo_attrs obj false cf sa sn) q = none ∧
    (obj.parents = [] → dictLookup (extract_neo_attrs obj true cf sa sn) q = none) := by
  obtain ⟨annots, nec, rec_, qa, av, ps⟩ := obj
  have hown := @extract_own_absent (.mk annots nec rec_ qa av ps) _ sa sn hq ha
  constructor
  · rw [extract_neo_attrs]
    simpa using hown
  · intro hp
    have hps : ps = [] := by simpa [AttrObj.parents] using hp
    subst hps
    rw [extract_neo_attrs]
    simpa [parentFold] using hown

theorem claim_C7_quantity_excluded_witness :
    dictLookup (extract_neo_attrs (.mk [] [] [("t", false)] (some "t") [] [])
        false true false false) "t" = none ∧
    dictLookup (extract_neo_attrs (.mk [] [] [("t", false)] (some "t") [] [])
        true true false false) "t" = none := by
  have h := claim_C7_quantity_excluded (.mk [] [] [("t", false)] (some "t") [] [])
    "t" true false false rfl rfl
  exact ⟨h.1, h.2 rfl⟩

theorem extract_own_skip_filter (obj : AttrObj) (sa : Bool) :
    extract_own obj sa true
      = (extract_own obj sa false).filter (fun kv => kv.2.isSome) := rfl

/-- C9: with `skip_none=true`, `include_parents=true` and
`prefer_child=true`, a key that resolves to `None` on the child (it is in
the child-only map with value `None` before the `skip_none` deletion) is
dropped from the child's map before the parent merge, so the returned
mapping carries the parent's non-`None` value for that key instead of
omitting it or mapping it to `None`. -/
theorem claim_C9_parent_fills_child_none (obj p : AttrObj) (k v : String) (sa : Bool)
    (hp : obj.parents = [some p])
    (hchild : dictLookup (extract_neo_attrs obj false true sa false) k = some none)
    (hparent : dictLookup (extract_neo_attrs p true true sa true) k = some (some v)) :
    dictLookup (extract_neo_attrs obj true true sa true) k = some (some v) := by
  obtain ⟨annots, nec, rec_, qa, av, ps⟩ := obj
  have hps : ps = [some p] := by simpa [AttrObj.parents] using hp
  subst hps
  have hchild2 : dictLookup (extract_own (.mk annots nec rec_ qa av [some p]) sa false) k
      = some none := by
    rw [extract_neo_attrs] at hchild
    simpa using hchild
  have hdrop : dictLookup (extract_own (.mk annots nec rec_ qa av [some p]) sa true) k
      = none := by
    rw [extract_own_skip_filter]
    exact dictLookup_filter_isSome_of_some_none (keysNodup_extract_own _ sa false) hchild2
  rw [extract_neo_attrs]
  simp only [if_pos rfl, parentFold, if_true]
  rw [dictLookup_dictUpdate_none hdrop]
  exact hparent

/-- A parent object carrying the annotation `k -> "w"`. -/
def parC : AttrObj := .mk [("k", some "w")] [] [] none [] []

/-- A child whose declared attribute `k` resolves to `None` and whose only
parent is `parC`. -/
def childC : AttrObj := .mk [] [("k", false)] [] none [] [some parC]

theorem claim_C9_parent_fills_child_none_witness :
    dictLookup (extract_neo_attrs childC true true false true) "k" = some (some "w") := by
  refine claim_C9_parent_fills_child_none childC parC "k" "w" false rfl ?_ ?_
  · simp only [childC, parC]
    rw [extract_neo_attrs]
    simp [extract_own, dictUpdate, dictSet, dictLookup, declStep, attrLookup,
      AttrObj.annots, AttrObj.necessary_attrs, AttrObj.recommended_attrs,
      AttrObj.quantity_attr, AttrObj.attr_vals, List.find?]
  · simp only [parC]
    rw [extract_neo_attrs]
    simp [extract_own, dictUpdate, dictSet, dictLookup, declStep, attrLookup,
      AttrObj.annots, AttrObj.necessary_attrs, AttrObj.recommended_attrs,
      AttrObj.quantity_attr, AttrObj.attr_vals, AttrObj.parents, parentFold,
      List.find?]
